import Mathlib

/-!
# Verification of the credit-card paydown schedule engine

A shallow embedding of `create_payment_schedule` from `cc_paydown_planner.py`
(the debt-snowball amortization engine), with monetary quantities modelled as
exact rationals (`ℚ`).  The Python `while` loop guarded by the month counter
(`if month > 1000: return error`) is embedded as structural recursion on a
fuel parameter that equals `1000 - month` at every call, so the guard fires
exactly when the source's does (after the 1000th processed month).
-/

namespace CCPaydown

/-- The `CreditCard` class: one revolving account.  `monthly_interest_rate`
is the derived field computed once in `__init__`. -/
structure CreditCard where
  name : String
  balance : ℚ
  minimum_payment : ℚ
  due_date : String
  apr : ℚ
  credit_limit : ℚ
  notes : String
  monthly_interest_rate : ℚ
deriving DecidableEq, Repr

/-- The `CreditCard.__init__` constructor: derives `monthly_interest_rate = apr / 100 / 12`. -/
def CreditCard.make (name : String) (balance minimum_payment : ℚ) (due_date : String)
    (apr credit_limit : ℚ) (notes : String) : CreditCard :=
  ⟨name, balance, minimum_payment, due_date, apr, credit_limit, notes, apr / 100 / 12⟩

/-- `calculate_interest`: monthly interest charge. -/
def calculate_interest (balance monthly_rate : ℚ) : ℚ :=
  balance * monthly_rate

/-- One entry of `remaining_cards`: the per-run working dict
`{"name": ..., "balance": ..., "minimum": ..., "apr": ..., "monthly_rate": ...}`
built from a `CreditCard` (lines 80-89). -/
structure WCard where
  name : String
  balance : ℚ
  minimum : ℚ
  apr : ℚ
  monthly_rate : ℚ
deriving DecidableEq, Repr

/-- Building one working dict from a card (lines 81-88). -/
def toWCard (c : CreditCard) : WCard :=
  ⟨c.name, c.balance, c.minimum_payment, c.apr, c.monthly_interest_rate⟩

/-- One record of `month_data["payments"]` (lines 114-123). -/
structure PaymentLine where
  card : String
  payment : ℚ
  interest : ℚ
  principal : ℚ
  balance_before : ℚ
  balance_after : ℚ
deriving DecidableEq, Repr

/-- One `month_data` dict (lines 94-100). -/
structure MonthData where
  month : Nat
  payments : List PaymentLine
  balances_after : List (String × ℚ)
  total_paid : ℚ
  interest_paid : ℚ
deriving DecidableEq, Repr

/-- The success dictionary returned at line 166. -/
structure ScheduleSuccess where
  schedule : List MonthData
  total_months : Nat
  total_interest_paid : ℚ
  total_amount_paid : ℚ
deriving DecidableEq, Repr

/-- The two `{"error": ...}` results.  The budget error message (line 72)
interpolates the budget and the required minimum; we carry both figures. -/
inductive ScheduleError where
  | budgetBelowMinimum (budget required : ℚ)
  | runaway
deriving DecidableEq, Repr

/-- Result of `create_payment_schedule`: either an error dict or the success dict. -/
inductive ScheduleResult where
  | error (e : ScheduleError)
  | ok (s : ScheduleSuccess)
deriving DecidableEq, Repr

/-- The minimum-payment step for one card (lines 103-125): charge interest,
pay the minimum, clamp the payment up to the interest when the minimum does
not cover it, clamp the balance at zero.  Returns the recorded payment line
and the updated working card. -/
def minStep (c : WCard) : PaymentLine × WCard :=
  let interest_charge := calculate_interest c.balance c.monthly_rate
  let payment := c.minimum
  let principal := payment - interest_charge
  let principal2 := if principal < 0 then 0 else principal
  let payment2 := if principal < 0 then interest_charge else payment
  let new_balance := max 0 (c.balance - principal2)
  (⟨c.name, payment2, interest_charge, principal2, c.balance, new_balance⟩,
   { c with balance := new_balance })

/-- The `for card in remaining_cards` loop of lines 102-127: apply `minStep`
to every working card, collecting the payment lines and the updated cards. -/
def applyMinimums : List WCard → List PaymentLine × List WCard
  | [] => ([], [])
  | c :: rest =>
    let (line, c2) := minStep c
    let (lines, rest2) := applyMinimums rest
    (line :: lines, c2 :: rest2)

/-- The `for payment_record in month_data["payments"]` search of lines
138-143: add the extra payment to the first payment record whose card name
matches the target, set its recorded balance, and stop. -/
def bumpFirst (target : String) (extra_applied newBal : ℚ) :
    List PaymentLine → List PaymentLine
  | [] => []
  | l :: ls =>
    if l.card = target then
      { l with
        payment := l.payment + extra_applied,
        principal := l.principal + extra_applied,
        balance_after := newBal } :: ls
    else l :: bumpFirst target extra_applied newBal ls

/-- One iteration of the `while remaining_cards` loop body, lines 94-154
(without the bookkeeping that follows): apply minimum payments to all cards,
then route the extra payment to `remaining_cards[0]` when it is positive and
the target still carries a balance, then record the balances.  Returns the
`month_data` record and the updated working cards (before the paid-off
filter). -/
def processMonth (extra_payment : ℚ) (month : Nat) (cards : List WCard) :
    MonthData × List WCard :=
  let (lines, cards1) := applyMinimums cards
  let basePaid := (lines.map (·.payment)).sum
  let interestPaid := (lines.map (·.interest)).sum
  let (lines2, cards2, paid2) :=
    match cards1 with
    | [] => (lines, ([] : List WCard), basePaid)
    | t :: rest =>
      if 0 < extra_payment then
        if 0 < t.balance then
          let extra_applied := min extra_payment t.balance
          let t2 := { t with balance := t.balance - extra_applied }
          (bumpFirst t.name extra_applied t2.balance lines, t2 :: rest,
            basePaid + extra_applied)
        else (lines, t :: rest, basePaid)
      else (lines, t :: rest, basePaid)
  (⟨month, lines2, cards2.map (fun c => (c.name, c.balance)), paid2, interestPaid⟩,
   cards2)

/-- The `while remaining_cards` loop of lines 93-164.  `fuel` equals
`1000 - month` at every call, so `fuel = 0` exactly when the just-processed
month is month 1000 and the source's `if month > 1000` safety check fires. -/
def scheduleLoop (extra_payment : ℚ) : List WCard → Nat → List MonthData → ℚ → Nat →
    ScheduleResult
  | [], _, schedule, total_interest_paid, _ =>
    .ok ⟨schedule, schedule.length, total_interest_paid,
      (schedule.map (·.total_paid)).sum⟩
  | c :: cs, month, schedule, total_interest_paid, fuel =>
    let (month_data, cards2) := processMonth extra_payment month (c :: cs)
    let remaining := cards2.filter (fun card => 0 < card.balance)
    let total_interest2 := total_interest_paid + month_data.interest_paid
    let schedule2 := schedule ++ [month_data]
    match fuel with
    | 0 => .error .runaway
    | fuel + 1 =>
      scheduleLoop extra_payment remaining (month + 1) schedule2 total_interest2 fuel

/-- `create_payment_schedule` (lines 58-171): filter out zero balances, sort
ascending by balance (Python's `sorted` is stable; `List.insertionSort` with
`balance ≤ balance` realizes the same stable ascending order), check the
budget against the total of minimum payments, then run the monthly loop with
the constant extra payment. -/
def create_payment_schedule (cards : List CreditCard) (total_monthly_payment : ℚ) :
    ScheduleResult :=
  let cards_with_balance := cards.filter (fun card => 0 < card.balance)
  let cards_sorted := List.insertionSort (fun a b => a.balance ≤ b.balance) cards_with_balance
  let total_minimums := (cards_sorted.map (·.minimum_payment)).sum
  if total_monthly_payment < total_minimums then
    .error (.budgetBelowMinimum total_monthly_payment total_minimums)
  else
    let extra_payment := total_monthly_payment - total_minimums
    scheduleLoop extra_payment (cards_sorted.map toWCard) 1 [] 0 999

/-- The stateful variant for the frame property: the source's loop reads and
writes only the `remaining_cards` dicts, never the `CreditCard` objects, so
the state-passing translation threads the source records untouched through
every iteration. -/
def scheduleLoopSt (extra_payment : ℚ) :
    List WCard → Nat → List MonthData → ℚ → Nat → List CreditCard →
    ScheduleResult × List CreditCard
  | [], _, schedule, total_interest_paid, _, src =>
    (.ok ⟨schedule, schedule.length, total_interest_paid,
      (schedule.map (·.total_paid)).sum⟩, src)
  | c :: cs, month, schedule, total_interest_paid, fuel, src =>
    let (month_data, cards2) := processMonth extra_payment month (c :: cs)
    let remaining := cards2.filter (fun card => 0 < card.balance)
    let total_interest2 := total_interest_paid + month_data.interest_paid
    let schedule2 := schedule ++ [month_data]
    match fuel with
    | 0 => (.error .runaway, src)
    | fuel + 1 =>
      scheduleLoopSt extra_payment remaining (month + 1) schedule2 total_interest2 fuel src

/-- State-passing translation of `create_payment_schedule`: the card list is
the mutable heap; every phase of the source only reads card attributes (the
working balances live in the fresh `remaining_cards` dicts), so the heap is
returned alongside the result. -/
def create_payment_schedule_st (cards : List CreditCard) (total_monthly_payment : ℚ) :
    ScheduleResult × List CreditCard :=
  let cards_with_balance := cards.filter (fun card => 0 < card.balance)
  let cards_sorted := List.insertionSort (fun a b => a.balance ≤ b.balance) cards_with_balance
  let total_minimums := (cards_sorted.map (·.minimum_payment)).sum
  if total_monthly_payment < total_minimums then
    (.error (.budgetBelowMinimum total_monthly_payment total_minimums), cards)
  else
    let extra_payment := total_monthly_payment - total_minimums
    scheduleLoopSt extra_payment (cards_sorted.map toWCard) 1 [] 0 999 cards

/-! ## Specification-side helper definitions -/

/-- The `(card, balance_before)` pairs recorded in one month. -/
def pairsBefore (md : MonthData) : List (String × ℚ) :=
  md.payments.map (fun l => (l.card, l.balance_before))

/-- The `(card, balance_after)` pairs recorded in one month. -/
def pairsAfter (md : MonthData) : List (String × ℚ) :=
  md.payments.map (fun l => (l.card, l.balance_after))

/-- The `(name, balance)` pairs of a working-card list. -/
def cardPairs (cards : List WCard) : List (String × ℚ) :=
  cards.map (fun c => (c.name, c.balance))

/-- The minimum payment of the (first) input account with a given name. -/
def minOf (cards : List CreditCard) (n : String) : ℚ :=
  ((cards.find? (fun c => c.name = n)).map (·.minimum_payment)).getD 0

/-- The per-month record invariants established by `processMonth`: every line
balances (`payment = interest + principal`, clamped balance equation, balance
moves down but not below zero), and the month totals are the sums over the
recorded lines. -/
def MonthGood (md : MonthData) : Prop :=
  (∀ l ∈ md.payments, l.payment = l.interest + l.principal ∧
      l.balance_after = max 0 (l.balance_before - l.principal) ∧
      0 ≤ l.balance_after ∧ l.balance_after ≤ l.balance_before) ∧
  md.total_paid = (md.payments.map (·.payment)).sum ∧
  md.interest_paid = (md.payments.map (·.interest)).sum

/-- Every payment line other than the first records exactly the
minimum-derived payment `max minimum interest` of its account, where `f`
gives each account's minimum payment by name. -/
def TailMin (f : String → ℚ) (md : MonthData) : Prop :=
  ∀ j : Nat, (hj : j < md.payments.length) → 1 ≤ j →
    (md.payments.get ⟨j, hj⟩).payment
      = max (f (md.payments.get ⟨j, hj⟩).card) ((md.payments.get ⟨j, hj⟩).interest)

/-- The sorted working order fixed once at the start of a run (line 65):
zero-balance accounts dropped, then a stable ascending sort by balance. -/
def sortedCards (cards : List CreditCard) : List CreditCard :=
  List.insertionSort (fun a b => a.balance ≤ b.balance)
    (cards.filter (fun card => 0 < card.balance))

/-- The sum of minimum payments over the accounts with a positive balance
(the `required_minimum` of the specification). -/
def required_minimum (cards : List CreditCard) : ℚ :=
  ((cards.filter (fun card => 0 < card.balance)).map (·.minimum_payment)).sum

/-- The number of periods reported by a result (zero for an error). -/
def monthsOf : ScheduleResult → Nat
  | .ok s => s.total_months
  | .error _ => 0

/-- A small concrete account: balance 25, minimum 25, APR 0. -/
def sampleCard : CreditCard := CreditCard.make "A" 25 25 "15th" 0 0 ""

/-- The schedule the engine computes for `sampleCard` with budget 25:
one month, the single minimum payment clears the balance. -/
def sampleSuccess : ScheduleSuccess :=
  ⟨[⟨1, [⟨"A", 25, 0, 25, 25, 0⟩], [("A", 0)], 25, 0⟩], 1, 0, 25⟩

instance : IsTotal CreditCard (fun a b => a.balance ≤ b.balance) :=
  ⟨fun a b => le_total a.balance b.balance⟩

instance : IsTrans CreditCard (fun a b => a.balance ≤ b.balance) :=
  ⟨fun _ _ _ hab hbc => le_trans hab hbc⟩

/-! ## Structure lemmas for the per-month step -/

theorem applyMinimums_eq (cards : List WCard) :
    applyMinimums cards =
      (cards.map (fun c => (minStep c).1), cards.map (fun c => (minStep c).2)) := by
  induction cards with
  | nil => rfl
  | cons c cs ih => simp [applyMinimums, ih]

theorem minStep_card (c : WCard) : (minStep c).1.card = c.name := by
  simp [minStep]

theorem minStep_before (c : WCard) : (minStep c).1.balance_before = c.balance := by
  simp [minStep]

theorem minStep_snd_name (c : WCard) : (minStep c).2.name = c.name := by
  simp [minStep]

theorem minStep_snd_minimum (c : WCard) : (minStep c).2.minimum = c.minimum := by
  simp [minStep]

theorem minStep_snd_balance (c : WCard) :
    (minStep c).2.balance = (minStep c).1.balance_after := by
  simp [minStep]

theorem minStep_principal_nonneg (c : WCard) : 0 ≤ (minStep c).1.principal := by
  simp only [minStep]
  split <;> simp_all [le_of_lt, not_lt, sub_nonneg, le_of_not_lt]

theorem minStep_payment_eq (c : WCard) :
    (minStep c).1.payment = (minStep c).1.interest + (minStep c).1.principal := by
  by_cases h : c.minimum - calculate_interest c.balance c.monthly_rate < 0
  · simp [minStep, h]
  · simp only [minStep, if_neg h]
    ring

theorem minStep_after_eq (c : WCard) :
    (minStep c).1.balance_after = max 0 ((minStep c).1.balance_before - (minStep c).1.principal) := by
  simp [minStep]

theorem minStep_payment_max (c : WCard) :
    (minStep c).1.payment = max c.minimum (calculate_interest c.balance c.monthly_rate) := by
  by_cases h : c.minimum - calculate_interest c.balance c.monthly_rate < 0
  · simp only [minStep, if_pos h]
    rw [max_eq_right]
    linarith
  · simp only [minStep, if_neg h]
    rw [max_eq_left]
    linarith [not_lt.mp h]

theorem bumpFirst_cons_of_eq {l : PaymentLine} {ls : List PaymentLine}
    {target : String} (h : l.card = target) (ea nb : ℚ) :
    bumpFirst target ea nb (l :: ls) =
      { l with payment := l.payment + ea, principal := l.principal + ea,
               balance_after := nb } :: ls := by
  simp [bumpFirst, h]

theorem minStep_after_nonneg (c : WCard) : 0 ≤ (minStep c).1.balance_after := by
  simp [minStep]

theorem minStep_after_le (c : WCard) (h : 0 ≤ c.balance) :
    (minStep c).1.balance_after ≤ (minStep c).1.balance_before := by
  have hp := minStep_principal_nonneg c
  rw [minStep_after_eq]
  apply max_le
  · rw [minStep_before]
    exact h
  · linarith

/-- Explicit characterization of one month step on a nonempty working list:
either the extra payment is routed to the head card (bumping its recorded
line), or every line is exactly its minimum-payment line. -/
theorem processMonth_eq (e : ℚ) (m : Nat) (c : WCard) (cs : List WCard) :
    processMonth e m (c :: cs) =
      if 0 < e ∧ 0 < (minStep c).2.balance then
        (⟨m,
          { (minStep c).1 with
              payment := (minStep c).1.payment + min e (minStep c).2.balance,
              principal := (minStep c).1.principal + min e (minStep c).2.balance,
              balance_after :=
                ({ (minStep c).2 with
                    balance := (minStep c).2.balance - min e (minStep c).2.balance }).balance }
            :: cs.map (fun x => (minStep x).1),
          (({ (minStep c).2 with
              balance := (minStep c).2.balance - min e (minStep c).2.balance })
            :: cs.map (fun x => (minStep x).2)).map (fun x => (x.name, x.balance)),
          (((minStep c).1 :: cs.map (fun x => (minStep x).1)).map (·.payment)).sum
            + min e (minStep c).2.balance,
          (((minStep c).1 :: cs.map (fun x => (minStep x).1)).map (·.interest)).sum⟩,
         ({ (minStep c).2 with
            balance := (minStep c).2.balance - min e (minStep c).2.balance })
           :: cs.map (fun x => (minStep x).2))
      else
        (⟨m, (minStep c).1 :: cs.map (fun x => (minStep x).1),
          ((minStep c).2 :: cs.map (fun x => (minStep x).2)).map (fun x => (x.name, x.balance)),
          (((minStep c).1 :: cs.map (fun x => (minStep x).1)).map (·.payment)).sum,
          (((minStep c).1 :: cs.map (fun x => (minStep x).1)).map (·.interest)).sum⟩,
         (minStep c).2 :: cs.map (fun x => (minStep x).2)) := by
  have hcard : (minStep c).1.card = (minStep c).2.name := by
    rw [minStep_card, minStep_snd_name]
  simp only [processMonth, applyMinimums_eq, List.map_cons]
  by_cases he : 0 < e
  · by_cases hb : 0 < (minStep c).2.balance
    · rw [if_pos he, if_pos hb, if_pos (And.intro he hb), bumpFirst_cons_of_eq hcard]
      rfl
    · rw [if_pos he, if_neg hb, if_neg (fun h : _ ∧ _ => hb h.2)]
      rfl
  · rw [if_neg he, if_neg (fun h : _ ∧ _ => he h.1)]
    rfl

theorem processMonth_month (e : ℚ) (m : Nat) (cards : List WCard) :
    (processMonth e m cards).1.month = m := by
  cases cards with
  | nil => rfl
  | cons c cs =>
    rw [processMonth_eq]
    by_cases h : 0 < e ∧ 0 < (minStep c).2.balance
    · rw [if_pos h]
    · rw [if_neg h]

theorem processMonth_pairsBefore (e : ℚ) (m : Nat) (cards : List WCard) :
    pairsBefore (processMonth e m cards).1 = cardPairs cards := by
  have htail : ∀ x : WCard,
      ((minStep x).1.card, (minStep x).1.balance_before) = (x.name, x.balance) := by
    intro x
    rw [minStep_card, minStep_before]
  cases cards with
  | nil => rfl
  | cons c cs =>
    rw [processMonth_eq]
    by_cases h : 0 < e ∧ 0 < (minStep c).2.balance
    · rw [if_pos h]
      simp only [pairsBefore, cardPairs, List.map_cons, List.map_map]
      exact congrArg₂ _ (htail c) (List.map_congr_left (fun x _ => htail x))
    · rw [if_neg h]
      simp only [pairsBefore, cardPairs, List.map_cons, List.map_map]
      exact congrArg₂ _ (htail c) (List.map_congr_left (fun x _ => htail x))

theorem processMonth_pairsAfter (e : ℚ) (m : Nat) (cards : List WCard) :
    pairsAfter (processMonth e m cards).1 = cardPairs (processMonth e m cards).2 := by
  have htail : ∀ x : WCard,
      ((minStep x).1.card, (minStep x).1.balance_after)
        = ((minStep x).2.name, (minStep x).2.balance) := by
    intro x
    rw [minStep_card, minStep_snd_name, minStep_snd_balance]
  cases cards with
  | nil => rfl
  | cons c cs =>
    rw [processMonth_eq]
    by_cases h : 0 < e ∧ 0 < (minStep c).2.balance
    · rw [if_pos h]
      simp only [pairsAfter, cardPairs, List.map_cons, List.map_map]
      refine congrArg₂ _ ?_ (List.map_congr_left (fun x _ => htail x))
      rw [minStep_card, minStep_snd_name]
    · rw [if_neg h]
      simp only [pairsAfter, cardPairs, List.map_cons, List.map_map]
      exact congrArg₂ _ (htail c) (List.map_congr_left (fun x _ => htail x))

theorem processMonth_balances_after (e : ℚ) (m : Nat) (cards : List WCard) :
    (processMonth e m cards).1.balances_after = cardPairs (processMonth e m cards).2 := by
  cases cards with
  | nil => rfl
  | cons c cs =>
    rw [processMonth_eq]
    by_cases h : 0 < e ∧ 0 < (minStep c).2.balance
    · rw [if_pos h]
      rfl
    · rw [if_neg h]
      rfl

theorem processMonth_minmap (e : ℚ) (m : Nat) (cards : List WCard) :
    (processMonth e m cards).2.map (fun c => (c.name, c.minimum))
      = cards.map (fun c => (c.name, c.minimum)) := by
  have htail : ∀ x : WCard,
      ((minStep x).2.name, (minStep x).2.minimum) = (x.name, x.minimum) := by
    intro x
    rw [minStep_snd_name, minStep_snd_minimum]
  cases cards with
  | nil => rfl
  | cons c cs =>
    rw [processMonth_eq]
    by_cases h : 0 < e ∧ 0 < (minStep c).2.balance
    · rw [if_pos h]
      simp only [List.map_cons, List.map_map]
      exact congrArg₂ _ (htail c) (List.map_congr_left (fun x _ => htail x))
    · rw [if_neg h]
      simp only [List.map_cons, List.map_map]
      exact congrArg₂ _ (htail c) (List.map_congr_left (fun x _ => htail x))

theorem processMonth_tail (e : ℚ) (m : Nat) (cards : List WCard) :
    (processMonth e m cards).1.payments.tail
      = (cards.map (fun x => (minStep x).1)).tail := by
  cases cards with
  | nil => rfl
  | cons c cs =>
    rw [processMonth_eq]
    by_cases h : 0 < e ∧ 0 < (minStep c).2.balance
    · rw [if_pos h]
      rfl
    · rw [if_neg h]
      rfl

theorem processMonth_lines_good (e : ℚ) (m : Nat) (cards : List WCard) :
    ∀ l ∈ (processMonth e m cards).1.payments,
      l.payment = l.interest + l.principal ∧
      l.balance_after = max 0 (l.balance_before - l.principal) ∧ 0 ≤ l.principal := by
  have hmin : ∀ x : WCard, (minStep x).1.payment
        = (minStep x).1.interest + (minStep x).1.principal ∧
      (minStep x).1.balance_after
        = max 0 ((minStep x).1.balance_before - (minStep x).1.principal) ∧
      0 ≤ (minStep x).1.principal :=
    fun x => ⟨minStep_payment_eq x, minStep_after_eq x, minStep_principal_nonneg x⟩
  cases cards with
  | nil => intro l hl; cases hl
  | cons c cs =>
    rw [processMonth_eq]
    by_cases h : 0 < e ∧ 0 < (minStep c).2.balance
    · rw [if_pos h]
      intro l hl
      rcases List.mem_cons.mp hl with rfl | hl
      · have hposgap : 0 < (minStep c).1.balance_before - (minStep c).1.principal := by
          by_contra hle
          push_neg at hle
          have hb := h.2
          rw [minStep_snd_balance, minStep_after_eq, max_eq_left (by linarith)] at hb
          exact lt_irrefl 0 hb
        have hbal : (minStep c).2.balance
            = (minStep c).1.balance_before - (minStep c).1.principal := by
          rw [minStep_snd_balance, minStep_after_eq, max_eq_right (le_of_lt hposgap)]
        have hea : min e (minStep c).2.balance ≤ (minStep c).2.balance := min_le_right _ _
        have heapos : 0 ≤ min e (minStep c).2.balance := le_min (le_of_lt h.1) (le_of_lt h.2)
        rw [hbal] at hea heapos
        refine ⟨?_, ?_, ?_⟩
        · have := (hmin c).1
          simp only [hbal]
          linarith
        · simp only [hbal]
          rw [max_eq_right (by linarith)]
          ring
        · have := (hmin c).2.2
          simp only [hbal]
          linarith
      · rcases List.mem_map.mp hl with ⟨x, _, rfl⟩
        exact hmin x
    · rw [if_neg h]
      intro l hl
      rcases List.mem_cons.mp hl with rfl | hl
      · exact hmin c
      · rcases List.mem_map.mp hl with ⟨x, _, rfl⟩
        exact hmin x

theorem processMonth_bounds (e : ℚ) (m : Nat) (cards : List WCard)
    (hpos : ∀ c ∈ cards, 0 < c.balance) :
    ∀ l ∈ (processMonth e m cards).1.payments,
      0 ≤ l.balance_after ∧ l.balance_after ≤ l.balance_before := by
  have hmin : ∀ x ∈ cards, 0 ≤ (minStep x).1.balance_after ∧
      (minStep x).1.balance_after ≤ (minStep x).1.balance_before :=
    fun x hx => ⟨minStep_after_nonneg x, minStep_after_le x (le_of_lt (hpos x hx))⟩
  cases cards with
  | nil => intro l hl; cases hl
  | cons c cs =>
    rw [processMonth_eq]
    by_cases h : 0 < e ∧ 0 < (minStep c).2.balance
    · rw [if_pos h]
      intro l hl
      rcases List.mem_cons.mp hl with rfl | hl
      · have hea : min e (minStep c).2.balance ≤ (minStep c).2.balance := min_le_right _ _
        have heapos : 0 ≤ min e (minStep c).2.balance := le_min (le_of_lt h.1) (le_of_lt h.2)
        have hle := (hmin c (List.mem_cons_self c cs)).2
        simp only [minStep_snd_balance] at hea heapos ⊢
        constructor
        · linarith
        · linarith
      · rcases List.mem_map.mp hl with ⟨x, hx, rfl⟩
        exact hmin x (List.mem_cons_of_mem c hx)
    · rw [if_neg h]
      intro l hl
      rcases List.mem_cons.mp hl with rfl | hl
      · exact hmin c (List.mem_cons_self c cs)
      · rcases List.mem_map.mp hl with ⟨x, hx, rfl⟩
        exact hmin x (List.mem_cons_of_mem c hx)

theorem processMonth_totals (e : ℚ) (m : Nat) (cards : List WCard) :
    (processMonth e m cards).1.total_paid
        = ((processMonth e m cards).1.payments.map (·.payment)).sum ∧
      (processMonth e m cards).1.interest_paid
        = ((processMonth e m cards).1.payments.map (·.interest)).sum := by
  cases cards with
  | nil => exact ⟨rfl, rfl⟩
  | cons c cs =>
    rw [processMonth_eq]
    by_cases h : 0 < e ∧ 0 < (minStep c).2.balance
    · rw [if_pos h]
      constructor
      · simp only [List.map_cons, List.sum_cons]
        ring
      · simp only [List.map_cons, List.sum_cons]
    · rw [if_neg h]
      exact ⟨rfl, rfl⟩

theorem minStep_interest (c : WCard) :
    (minStep c).1.interest = calculate_interest c.balance c.monthly_rate := by
  simp [minStep]

theorem processMonth_monthGood (e : ℚ) (m : Nat) (cards : List WCard)
    (hpos : ∀ c ∈ cards, 0 < c.balance) :
    MonthGood (processMonth e m cards).1 := by
  refine ⟨fun l hl => ?_, (processMonth_totals e m cards).1, (processMonth_totals e m cards).2⟩
  have h1 := processMonth_lines_good e m cards l hl
  have h2 := processMonth_bounds e m cards hpos l hl
  exact ⟨h1.1, h1.2.1, h2.1, h2.2⟩

theorem processMonth_tailMin (e : ℚ) (m : Nat) (cards : List WCard)
    (f : String → ℚ) (hf : ∀ c ∈ cards, f c.name = c.minimum) :
    TailMin f (processMonth e m cards).1 := by
  have hline : ∀ x ∈ cards, (minStep x).1.payment
      = max (f ((minStep x).1.card)) ((minStep x).1.interest) := by
    intro x hx
    rw [minStep_payment_max, minStep_card, minStep_interest, hf x hx]
  cases cards with
  | nil =>
    intro j hj h1
    rw [show processMonth e m ([] : List WCard) = (⟨m, [], [], 0, 0⟩, []) from rfl] at hj
    exact absurd hj (by simp)
  | cons c cs =>
    have key : ∀ L : List PaymentLine,
        L = (processMonth e m (c :: cs)).1.payments →
        L.tail = cs.map (fun x => (minStep x).1) →
        ∀ j : Nat, (hj : j < L.length) → 1 ≤ j →
          (L.get ⟨j, hj⟩).payment
            = max (f ((L.get ⟨j, hj⟩).card)) ((L.get ⟨j, hj⟩).interest) := by
      intro L _ htail j hj h1
      cases L with
      | nil => cases hj
      | cons l0 ls =>
        cases j with
        | zero => cases h1
        | succ k =>
          have hk : k < ls.length := Nat.lt_of_succ_lt_succ hj
          have hget : (l0 :: ls).get ⟨k + 1, hj⟩ = ls.get ⟨k, hk⟩ := rfl
          rw [hget]
          have hls : ls = cs.map (fun x => (minStep x).1) := htail
          subst hls
          have hk2 : k < cs.length := by
            simpa using hk
          have hgm : (cs.map (fun x => (minStep x).1)).get ⟨k, hk⟩
              = (minStep (cs.get ⟨k, hk2⟩)).1 := by
            simp
          rw [hgm]
          exact hline _ (List.mem_cons_of_mem c (cs.get_mem k hk2))
    intro j hj h1
    exact key (processMonth e m (c :: cs)).1.payments rfl
      (processMonth_tail e m (c :: cs)) j hj h1

theorem cardPairs_filter_sublist (p : WCard → Bool) (l : List WCard) :
    List.Sublist (cardPairs (l.filter p)) (cardPairs l) :=
  List.Sublist.map _ (List.filter_sublist l)

theorem scheduleLoop_cons_zero (e : ℚ) (c : WCard) (cs : List WCard) (month : Nat)
    (acc : List MonthData) (ti : ℚ) :
    scheduleLoop e (c :: cs) month acc ti 0 = .error .runaway := rfl

theorem scheduleLoop_cons_succ (e : ℚ) (c : WCard) (cs : List WCard) (month : Nat)
    (acc : List MonthData) (ti : ℚ) (fuel : Nat) :
    scheduleLoop e (c :: cs) month acc ti (fuel + 1)
      = scheduleLoop e
          ((processMonth e month (c :: cs)).2.filter (fun card => 0 < card.balance))
          (month + 1) (acc ++ [(processMonth e month (c :: cs)).1])
          (ti + (processMonth e month (c :: cs)).1.interest_paid) fuel := rfl

theorem scheduleLoop_nil (e : ℚ) (month : Nat) (acc : List MonthData) (ti : ℚ) (fuel : Nat) :
    scheduleLoop e [] month acc ti fuel
      = .ok ⟨acc, acc.length, ti, (acc.map (·.total_paid)).sum⟩ := by
  cases fuel with
  | zero => rfl
  | succ fuel => rfl

/-- The master invariant of the monthly loop: when it returns a success
result, the produced months extend the accumulator, every month satisfies
`MonthGood`, consecutive months link `balance_before` to the previous
`balance_after` through order-preserving sublists (the working list only
shrinks), the first produced month starts from the current working cards,
all lines after the first of each month are pure minimum-payment lines, and
the totals are the sums of the per-month figures. -/
theorem scheduleLoop_ok_spec (e : ℚ) :
    ∀ (fuel : Nat) (cards : List WCard) (month : Nat) (acc : List MonthData) (ti : ℚ)
      (s : ScheduleSuccess),
      (∀ c ∈ cards, 0 < c.balance) →
      scheduleLoop e cards month acc ti fuel = .ok s →
      ∃ rest,
        s.schedule = acc ++ rest ∧
        s.total_months = s.schedule.length ∧
        s.schedule.length ≤ acc.length + fuel ∧
        s.total_amount_paid = (s.schedule.map (·.total_paid)).sum ∧
        s.total_interest_paid = ti + (rest.map (·.interest_paid)).sum ∧
        (∀ md0, rest.head? = some md0 → pairsBefore md0 = cardPairs cards) ∧
        List.Chain' (fun a b => List.Sublist (pairsBefore b) (pairsAfter a)) rest ∧
        (∀ md ∈ rest, MonthGood md) ∧
        (∀ f : String → ℚ, (∀ c ∈ cards, f c.name = c.minimum) →
          ∀ md ∈ rest, TailMin f md) := by
  intro fuel
  induction fuel with
  | zero =>
    intro cards month acc ti s hpos hok
    cases cards with
    | nil =>
      rw [scheduleLoop_nil] at hok
      have hs : (⟨acc, acc.length, ti, (acc.map (·.total_paid)).sum⟩ : ScheduleSuccess)
          = s := by
        injection hok
      subst hs
      refine ⟨[], by simp, rfl, by simp, rfl, by simp, ?_, ?_, ?_, ?_⟩
      · intro md0 h
        cases h
      · exact List.chain'_nil
      · intro md h
        cases h
      · intro f _ md h
        cases h
    | cons c cs =>
      rw [scheduleLoop_cons_zero] at hok
      exact ScheduleResult.noConfusion hok
  | succ fuel ih =>
    intro cards month acc ti s hpos hok
    cases cards with
    | nil =>
      rw [scheduleLoop_nil] at hok
      have hs : (⟨acc, acc.length, ti, (acc.map (·.total_paid)).sum⟩ : ScheduleSuccess)
          = s := by
        injection hok
      subst hs
      refine ⟨[], by simp, rfl, by simp [Nat.le_add_right], rfl, by simp, ?_, ?_, ?_, ?_⟩
      · intro md0 h
        cases h
      · exact List.chain'_nil
      · intro md h
        cases h
      · intro f _ md h
        cases h
    | cons c cs =>
      rw [scheduleLoop_cons_succ] at hok
      cases hpm : processMonth e month (c :: cs) with
      | mk md cards2 =>
        rw [hpm] at hok
        replace hok : scheduleLoop e (cards2.filter (fun card => 0 < card.balance))
            (month + 1) (acc ++ [md]) (ti + md.interest_paid) fuel = .ok s := hok
        have hpos2 : ∀ x ∈ cards2.filter (fun card => 0 < card.balance), 0 < x.balance := by
          intro x hx
          have := (List.mem_filter.mp hx).2
          exact of_decide_eq_true this
        obtain ⟨rest2, hsch, hm, hlen, hpay, hint, hhead, hchain, hgood, htailmin⟩ :=
          ih (cards2.filter (fun card => 0 < card.balance)) (month + 1) (acc ++ [md])
            (ti + md.interest_paid) s hpos2 hok
        have hmd1 : (processMonth e month (c :: cs)).1 = md := by rw [hpm]
        have hmd2 : (processMonth e month (c :: cs)).2 = cards2 := by rw [hpm]
        refine ⟨md :: rest2, ?_, hm, ?_, hpay, ?_, ?_, ?_, ?_, ?_⟩
        · rw [hsch, List.append_assoc, List.singleton_append]
        · simp only [List.length_append, List.length_cons, List.length_nil] at hlen
          omega
        · rw [hint, List.map_cons, List.sum_cons]
          ring
        · intro md0 h
          have hmd0 : md = md0 := by
            simpa using h
          subst hmd0
          rw [← hmd1, processMonth_pairsBefore]
        · rw [List.chain'_cons']
          refine ⟨?_, hchain⟩
          intro y hy
          have hy2 := hhead y (Option.mem_def.mp hy)
          rw [hy2, ← hmd1, processMonth_pairsAfter, hmd2]
          exact cardPairs_filter_sublist _ cards2
        · intro md0 h
          rcases List.mem_cons.mp h with rfl | h
          · rw [← hmd1]
            exact processMonth_monthGood e month (c :: cs) hpos
          · exact hgood md0 h
        · intro f hf md0 h
          rcases List.mem_cons.mp h with rfl | h
          · rw [← hmd1]
            exact processMonth_tailMin e month (c :: cs) f hf
          · refine htailmin f ?_ md0 h
            intro x hx
            have hx2 : x ∈ cards2 := List.mem_of_mem_filter hx
            have hmap : (x.name, x.minimum)
                ∈ cards2.map (fun c => (c.name, c.minimum)) :=
              List.mem_map_of_mem _ hx2
            rw [← hmd2, processMonth_minmap] at hmap
            rcases List.mem_map.mp hmap with ⟨y, hy, hxy⟩
            have h1 : y.name = x.name := congrArg Prod.fst hxy
            have h2 : y.minimum = x.minimum := congrArg Prod.snd hxy
            rw [← h1, ← h2]
            exact hf y hy

/-! ## Top-level characterization -/

theorem create_payment_schedule_def (cards : List CreditCard) (b : ℚ) :
    create_payment_schedule cards b =
      if b < ((sortedCards cards).map (·.minimum_payment)).sum then
        .error (.budgetBelowMinimum b (((sortedCards cards).map (·.minimum_payment)).sum))
      else
        scheduleLoop (b - ((sortedCards cards).map (·.minimum_payment)).sum)
          ((sortedCards cards).map toWCard) 1 [] 0 999 := rfl

theorem sorted_minsum (cards : List CreditCard) :
    ((sortedCards cards).map (·.minimum_payment)).sum = required_minimum cards :=
  List.Perm.sum_eq (List.Perm.map _ (List.perm_insertionSort _ _))

theorem ws_pos (cards : List CreditCard) :
    ∀ x ∈ (sortedCards cards).map toWCard, 0 < x.balance := by
  intro x hx
  rcases List.mem_map.mp hx with ⟨y, hy, rfl⟩
  have hy2 : y ∈ cards.filter (fun card => 0 < card.balance) :=
    (List.mem_insertionSort _).mp hy
  exact of_decide_eq_true (List.mem_filter.mp hy2).2

theorem minOf_eq (cards : List CreditCard) (hnd : (cards.map (·.name)).Nodup)
    (y : CreditCard) (hy : y ∈ cards) : minOf cards y.name = y.minimum_payment := by
  unfold minOf
  cases hfind : cards.find? (fun c => c.name = y.name) with
  | none =>
    rw [List.find?_eq_none] at hfind
    exact absurd (hfind y hy) (by simp)
  | some z =>
    have hz0 := List.find?_some hfind
    have hz1 : z.name = y.name := by simpa using hz0
    have hz2 : z ∈ cards := List.mem_of_find?_eq_some hfind
    have hzy : z = y := List.inj_on_of_nodup_map hnd hz2 hy hz1
    rw [hzy]
    rfl

theorem sum_map_add {α : Type} (f g : α → ℚ) (l : List α) :
    (l.map (fun x => f x + g x)).sum = (l.map f).sum + (l.map g).sum := by
  induction l with
  | nil => simp
  | cons a l ih =>
    simp only [List.map_cons, List.sum_cons, ih]
    ring

/-- Stability of the initial sort: for every balance value, the accounts
carrying exactly that balance keep their original relative order. -/
theorem insertionSort_balance_stable (l : List CreditCard) (v : ℚ) :
    (List.insertionSort (fun a b => a.balance ≤ b.balance) l).filter
        (fun c => decide (c.balance = v))
      = l.filter (fun c => decide (c.balance = v)) := by
  induction l with
  | nil => rfl
  | cons a l ih =>
    have hsplit := List.takeWhile_append_dropWhile
      (fun b => decide (¬ a.balance ≤ b.balance))
      (List.insertionSort (fun a b => a.balance ≤ b.balance) l)
    have hfl := congrArg (List.filter (fun c => decide (c.balance = v))) hsplit
    rw [List.filter_append] at hfl
    rw [List.insertionSort, List.orderedInsert_eq_take_drop, List.filter_append]
    by_cases hv : a.balance = v
    · have htake : (((List.insertionSort (fun a b => a.balance ≤ b.balance) l).takeWhile
            (fun b => decide (¬ a.balance ≤ b.balance))).filter
          (fun c => decide (c.balance = v))) = [] := by
        rw [List.filter_eq_nil_iff]
        intro b hb
        have hb2 := List.mem_takeWhile_imp hb
        have hblt : ¬ a.balance ≤ b.balance := by simpa using hb2
        simp only [decide_eq_true_eq]
        intro hbv
        exact hblt (le_of_eq (hv.trans hbv.symm))
      rw [htake] at hfl
      rw [List.nil_append] at hfl
      rw [htake, List.nil_append]
      rw [List.filter_cons, if_pos (decide_eq_true hv)]
      rw [List.filter_cons, if_pos (decide_eq_true hv)]
      rw [hfl, ih]
    · rw [List.filter_cons, if_neg (by simp [hv])]
      rw [List.filter_cons, if_neg (by simp [hv])]
      rw [hfl, ih]

/-- Specialization of the loop invariant to the whole engine: everything
`scheduleLoop_ok_spec` guarantees, stated from a successful top-level run. -/
theorem create_payment_schedule_ok_spec (cards : List CreditCard) (b : ℚ)
    (s : ScheduleSuccess) (hok : create_payment_schedule cards b = .ok s) :
    s.total_months = s.schedule.length ∧
    s.schedule.length ≤ 999 ∧
    s.total_amount_paid = (s.schedule.map (·.total_paid)).sum ∧
    s.total_interest_paid = (s.schedule.map (·.interest_paid)).sum ∧
    (∀ md0, s.schedule.head? = some md0 →
      pairsBefore md0 = cardPairs ((sortedCards cards).map toWCard)) ∧
    List.Chain' (fun a b => List.Sublist (pairsBefore b) (pairsAfter a)) s.schedule ∧
    (∀ md ∈ s.schedule, MonthGood md) ∧
    (∀ f : String → ℚ, (∀ c ∈ (sortedCards cards).map toWCard, f c.name = c.minimum) →
      ∀ md ∈ s.schedule, TailMin f md) := by
  rw [create_payment_schedule_def] at hok
  by_cases hlt : b < ((sortedCards cards).map (·.minimum_payment)).sum
  · rw [if_pos hlt] at hok
    exact ScheduleResult.noConfusion hok
  · rw [if_neg hlt] at hok
    obtain ⟨rest, hsch, hm, hlen, hpay, hint, hhead, hchain, hgood, htailmin⟩ :=
      scheduleLoop_ok_spec _ 999 ((sortedCards cards).map toWCard) 1 [] 0 s
        (ws_pos cards) hok
    rw [List.nil_append] at hsch
    subst hsch
    refine ⟨hm, by simpa using hlen, hpay, by simpa using hint, hhead, hchain,
      hgood, htailmin⟩

/-! ## Claim theorems: schedule-shape invariants -/

/-- C5: in every computed schedule, each account's recorded `balance_after`
values are non-increasing across the periods in which it appears and never
negative: within a period `0 ≤ balance_after ≤ balance_before`, and across
consecutive periods each account's `(card, balance_before)` pair reappears
as one of the previous period's `(card, balance_after)` pairs (an
order-preserving sublist, as the working list only shrinks). -/
theorem balance_after_monotone_nonneg (cards : List CreditCard) (b : ℚ)
    (s : ScheduleSuccess) (hok : create_payment_schedule cards b = .ok s) :
    (∀ md ∈ s.schedule, ∀ l ∈ md.payments,
      0 ≤ l.balance_after ∧ l.balance_after ≤ l.balance_before) ∧
    List.Chain' (fun a b => List.Sublist (pairsBefore b) (pairsAfter a)) s.schedule := by
  obtain ⟨-, -, -, -, -, hchain, hgood, -⟩ :=
    create_payment_schedule_ok_spec cards b s hok
  refine ⟨fun md hmd l hl => ?_, hchain⟩
  have h := (hgood md hmd).1 l hl
  exact ⟨h.2.2.1, h.2.2.2⟩

unseal Rat.mul Rat.add Rat.sub Rat.inv in
theorem balance_after_monotone_nonneg_witness :
    (∀ md ∈ sampleSuccess.schedule, ∀ l ∈ md.payments,
      0 ≤ l.balance_after ∧ l.balance_after ≤ l.balance_before) ∧
    List.Chain' (fun a b => List.Sublist (pairsBefore b) (pairsAfter a))
      sampleSuccess.schedule :=
  balance_after_monotone_nonneg [sampleCard] 25 sampleSuccess (by decide)

/-- C10: every recorded payment line satisfies
`payment = interest + principal` and
`balance_after = max 0 (balance_before - principal)`, and each account's
`balance_before` in one period equals its `balance_after` recorded in the
previous period (the consecutive-period `(card, balance)` pairs form a
sublist). -/
theorem payment_line_equations (cards : List CreditCard) (b : ℚ)
    (s : ScheduleSuccess) (hok : create_payment_schedule cards b = .ok s) :
    (∀ md ∈ s.schedule, ∀ l ∈ md.payments,
      l.payment = l.interest + l.principal ∧
      l.balance_after = max 0 (l.balance_before - l.principal)) ∧
    List.Chain' (fun a b => List.Sublist (pairsBefore b) (pairsAfter a)) s.schedule := by
  obtain ⟨-, -, -, -, -, hchain, hgood, -⟩ :=
    create_payment_schedule_ok_spec cards b s hok
  refine ⟨fun md hmd l hl => ?_, hchain⟩
  have h := (hgood md hmd).1 l hl
  exact ⟨h.1, h.2.1⟩

unseal Rat.mul Rat.add Rat.sub Rat.inv in
theorem payment_line_equations_witness :
    (∀ md ∈ sampleSuccess.schedule, ∀ l ∈ md.payments,
      l.payment = l.interest + l.principal ∧
      l.balance_after = max 0 (l.balance_before - l.principal)) ∧
    List.Chain' (fun a b => List.Sublist (pairsBefore b) (pairsAfter a))
      sampleSuccess.schedule :=
  payment_line_equations [sampleCard] 25 sampleSuccess (by decide)

/-- C2 (amended): on every successful run, `total_amount_paid` equals
`total_interest_paid` plus the total recorded principal across all payment
lines.  (The original claim — interest plus the sum of initial balances —
fails when a final-period minimum payment overshoots the remaining balance;
see the counterexample.) -/
theorem conservation_recorded_principal (cards : List CreditCard) (b : ℚ)
    (s : ScheduleSuccess) (hok : create_payment_schedule cards b = .ok s) :
    s.total_amount_paid = s.total_interest_paid
      + (s.schedule.map (fun md => (md.payments.map (·.principal)).sum)).sum := by
  obtain ⟨-, -, hpay, hint, -, -, hgood, -⟩ :=
    create_payment_schedule_ok_spec cards b s hok
  rw [hpay, hint]
  have h1 : ∀ md ∈ s.schedule,
      md.total_paid = md.interest_paid + (md.payments.map (·.principal)).sum := by
    intro md hmd
    obtain ⟨hlines, hq, hi⟩ := hgood md hmd
    rw [hq, hi]
    have h2 : md.payments.map (·.payment)
        = md.payments.map (fun l => l.interest + l.principal) :=
      List.map_congr_left (fun l hl => (hlines l hl).1)
    rw [h2, sum_map_add]
  calc (s.schedule.map (·.total_paid)).sum
      = (s.schedule.map
          (fun md => md.interest_paid + (md.payments.map (·.principal)).sum)).sum := by
        exact congrArg List.sum (List.map_congr_left h1)
    _ = (s.schedule.map (·.interest_paid)).sum
          + (s.schedule.map (fun md => (md.payments.map (·.principal)).sum)).sum :=
        sum_map_add _ _ _

unseal Rat.mul Rat.add Rat.sub Rat.inv in
theorem conservation_recorded_principal_witness :
    sampleSuccess.total_amount_paid = sampleSuccess.total_interest_paid
      + (sampleSuccess.schedule.map (fun md => (md.payments.map (·.principal)).sum)).sum :=
  conservation_recorded_principal [sampleCard] 25 sampleSuccess (by decide)

unseal Rat.mul Rat.add Rat.sub Rat.inv in
/-- C2 counterexample: a single account with balance 30, minimum 25 and APR
0 paid with budget 25 takes two months and records 50 paid with 0 interest,
while interest plus the initial balance is only 30 — the final minimum
payment overshoots the remaining 5 balance, so the claimed conservation
equality fails (and not merely by floating-point tolerance). -/
theorem conservation_vs_initial_balances_cex :
    create_payment_schedule [CreditCard.make "A" 30 25 "15th" 0 0 ""] 25
      = .ok ⟨[⟨1, [⟨"A", 25, 0, 25, 30, 5⟩], [("A", 5)], 25, 0⟩,
             ⟨2, [⟨"A", 25, 0, 25, 5, 0⟩], [("A", 0)], 25, 0⟩], 2, 0, 50⟩
      ∧ (50 : ℚ) ≠ 0 + 30 := by
  exact ⟨by decide, by norm_num⟩

/-! ## Error-path lemmas -/

theorem scheduleLoop_ne_budget (e : ℚ) : ∀ (fuel : Nat) (cards : List WCard) (m : Nat)
    (acc : List MonthData) (ti : ℚ) (x y : ℚ),
    scheduleLoop e cards m acc ti fuel ≠ .error (.budgetBelowMinimum x y) := by
  intro fuel
  induction fuel with
  | zero =>
    intro cards m acc ti x y h
    cases cards with
    | nil =>
      rw [scheduleLoop_nil] at h
      exact ScheduleResult.noConfusion h
    | cons c cs =>
      rw [scheduleLoop_cons_zero] at h
      injection h with h2
      exact ScheduleError.noConfusion h2
  | succ fuel ih =>
    intro cards m acc ti x y h
    cases cards with
    | nil =>
      rw [scheduleLoop_nil] at h
      exact ScheduleResult.noConfusion h
    | cons c cs =>
      rw [scheduleLoop_cons_succ] at h
      exact ih _ _ _ _ x y h

unseal Rat.mul Rat.add Rat.sub Rat.inv in
/-- A working card whose minimum payment is zero and whose interest keeps it
at balance 100 forever: the month step returns it unchanged. -/
theorem processMonth_fix (m : Nat) :
    (processMonth 0 m [(⟨"A", 100, 0, 18, 3/200⟩ : WCard)]).2
      = [(⟨"A", 100, 0, 18, 3/200⟩ : WCard)] := by
  rw [processMonth_eq, if_neg (fun h => lt_irrefl 0 h.1)]
  show (minStep (⟨"A", 100, 0, 18, 3/200⟩ : WCard)).2
      :: List.map (fun x => (minStep x).2) ([] : List WCard)
    = [(⟨"A", 100, 0, 18, 3/200⟩ : WCard)]
  decide

unseal Rat.mul Rat.add Rat.sub Rat.inv in
theorem runaway_fix : ∀ (fuel m : Nat) (acc : List MonthData) (ti : ℚ),
    scheduleLoop 0 [(⟨"A", 100, 0, 18, 3/200⟩ : WCard)] m acc ti fuel
      = .error .runaway := by
  intro fuel
  induction fuel with
  | zero =>
    intro m acc ti
    exact scheduleLoop_cons_zero 0 _ [] m acc ti
  | succ fuel ih =>
    intro m acc ti
    rw [scheduleLoop_cons_succ, processMonth_fix]
    rw [show List.filter (fun card => 0 < card.balance)
        [(⟨"A", 100, 0, 18, 3/200⟩ : WCard)] = [(⟨"A", 100, 0, 18, 3/200⟩ : WCard)]
      from by decide]
    exact ih (m + 1) _ _

/-- One payoff step of the zero-rate account with minimum 1: the balance
drops by exactly 1. -/
theorem processMonth_payoff_step (m : Nat) (q : ℚ) (h1 : 1 ≤ q) :
    (processMonth 0 m [(⟨"A", q, 1, 0, 0⟩ : WCard)]).2
      = [(⟨"A", q - 1, 1, 0, 0⟩ : WCard)] := by
  rw [processMonth_eq, if_neg (fun h => lt_irrefl 0 h.1)]
  simp only [minStep, calculate_interest, List.map_nil]
  norm_num
  linarith

theorem runaway_payoff : ∀ (fuel : Nat) (q : ℚ), (fuel : ℚ) + 1 ≤ q →
    ∀ (m : Nat) (acc : List MonthData) (ti : ℚ),
    scheduleLoop 0 [(⟨"A", q, 1, 0, 0⟩ : WCard)] m acc ti fuel = .error .runaway := by
  intro fuel
  induction fuel with
  | zero =>
    intro q hq m acc ti
    exact scheduleLoop_cons_zero 0 _ [] m acc ti
  | succ fuel ih =>
    intro q hq m acc ti
    push_cast at hq
    rw [scheduleLoop_cons_succ, processMonth_payoff_step m q (by linarith)]
    have hq1 : (0:ℚ) < q - 1 := by linarith
    rw [show List.filter (fun card => 0 < card.balance)
        [(⟨"A", q - 1, 1, 0, 0⟩ : WCard)] = [(⟨"A", q - 1, 1, 0, 0⟩ : WCard)] from by
      rw [List.filter_cons, if_pos (decide_eq_true hq1)]
      rfl]
    exact ih (q - 1) (by linarith) (m + 1) _ _

theorem payoff_success : ∀ (n : Nat), 1 ≤ n → ∀ (fuel : Nat), n ≤ fuel →
    ∀ (m : Nat) (acc : List MonthData) (ti : ℚ),
    ∃ s, scheduleLoop 0 [(⟨"A", (n:ℚ), 1, 0, 0⟩ : WCard)] m acc ti fuel = .ok s ∧
      s.total_months = acc.length + n := by
  intro n
  induction n with
  | zero =>
    intro h
    exact absurd h (by omega)
  | succ k ih =>
    intro _ fuel hfuel m acc ti
    obtain ⟨f, rfl⟩ : ∃ f, fuel = f + 1 := ⟨fuel - 1, by omega⟩
    have h1 : (1:ℚ) ≤ ((k+1 : ℕ) : ℚ) := by
      push_cast
      linarith [show (0:ℚ) ≤ (k:ℚ) from Nat.cast_nonneg k]
    rw [scheduleLoop_cons_succ, processMonth_payoff_step m ((k+1 : ℕ) : ℚ) h1]
    cases k with
    | zero =>
      rw [show List.filter (fun card => 0 < card.balance)
          [(⟨"A", ((0+1 : ℕ) : ℚ) - 1, 1, 0, 0⟩ : WCard)] = [] from by
        rw [List.filter_cons, if_neg (by norm_num)]
        rfl]
      rw [scheduleLoop_nil]
      refine ⟨_, rfl, ?_⟩
      simp
    | succ j =>
      have hcast : ((j+1+1 : ℕ) : ℚ) - 1 = ((j+1 : ℕ) : ℚ) := by
        push_cast
        ring
      rw [hcast]
      have hj1 : (0:ℚ) < ((j+1 : ℕ) : ℚ) := by
        push_cast
        linarith [show (0:ℚ) ≤ (j:ℚ) from Nat.cast_nonneg j]
      rw [show List.filter (fun card => 0 < card.balance)
          [(⟨"A", ((j+1 : ℕ) : ℚ), 1, 0, 0⟩ : WCard)]
          = [(⟨"A", ((j+1 : ℕ) : ℚ), 1, 0, 0⟩ : WCard)] from by
        rw [List.filter_cons, if_pos (decide_eq_true hj1)]
        rfl]
      obtain ⟨s, hs, htot⟩ := ih (by omega) f (by omega) (m + 1) _ _
      refine ⟨s, hs, ?_⟩
      simp only [List.length_append, List.length_cons, List.length_nil] at htot
      omega

/-! ## Claim theorems: error handling and the termination bound -/

/-- C3 (amended): a budget strictly below the sum of minimum payments over
the positive-balance accounts yields the budget error carrying both
figures (and no schedule is computed — the error result holds no periods);
a budget exactly equal to that sum never yields the budget error, though it
may still end in the runaway error (see the counterexample). -/
theorem budget_floor (cards : List CreditCard) (b : ℚ) :
    (b < required_minimum cards →
      create_payment_schedule cards b
        = .error (.budgetBelowMinimum b (required_minimum cards))) ∧
    (b = required_minimum cards →
      ∀ x y : ℚ, create_payment_schedule cards b ≠ .error (.budgetBelowMinimum x y)) := by
  constructor
  · intro hlt
    rw [create_payment_schedule_def, sorted_minsum, if_pos hlt]
  · intro heq x y
    rw [create_payment_schedule_def, sorted_minsum, if_neg (heq ▸ lt_irrefl b)]
    exact scheduleLoop_ne_budget _ 999 _ 1 [] 0 x y

unseal Rat.mul Rat.add Rat.sub Rat.inv in
theorem budget_floor_witness :
    create_payment_schedule [CreditCard.make "A" 1000 50 "15th" 18 0 "",
        CreditCard.make "B" 2000 75 "28th" 20 0 ""] 100
      = .error (.budgetBelowMinimum 100 125) ∧
    create_payment_schedule [sampleCard] 25 ≠ .error (.budgetBelowMinimum 25 25) := by
  constructor
  · have h := (budget_floor [CreditCard.make "A" 1000 50 "15th" 18 0 "",
        CreditCard.make "B" 2000 75 "28th" 20 0 ""] 100).1 (by decide)
    rw [show required_minimum [CreditCard.make "A" 1000 50 "15th" 18 0 "",
        CreditCard.make "B" 2000 75 "28th" 20 0 ""] = 125 from by decide] at h
    exact h
  · exact (budget_floor [sampleCard] 25).2 (by decide) 25 25

unseal Rat.mul Rat.add Rat.sub Rat.inv in
/-- C3 counterexample: one account with balance 100, minimum payment 0 and
APR 18 under budget 0.  The budget equals the required minimum (both 0), yet
the result is an error — the runaway error, since the zero minimum never
covers the interest and the balance never shrinks.  This refutes the
claim's converse direction that a budget exactly equal to the sum of
minimums is not an error. -/
theorem equal_budget_runaway_cex :
    required_minimum [CreditCard.make "A" 100 0 "15th" 18 0 ""] = 0 ∧
    create_payment_schedule [CreditCard.make "A" 100 0 "15th" 18 0 ""] 0
      = .error .runaway := by
  constructor
  · decide
  · rw [create_payment_schedule_def]
    rw [show ((sortedCards [CreditCard.make "A" 100 0 "15th" 18 0 ""]).map
        (·.minimum_payment)).sum = 0 from by decide]
    rw [if_neg (lt_irrefl 0)]
    rw [show (sortedCards [CreditCard.make "A" 100 0 "15th" 18 0 ""]).map toWCard
        = [(⟨"A", 100, 0, 18, 3/200⟩ : WCard)] from by decide]
    rw [show (0:ℚ) - 0 = 0 from by norm_num]
    exact runaway_fix 999 1 [] 0

unseal Rat.mul Rat.add Rat.sub Rat.inv in
/-- C4 counterexample: a zero-rate account with balance 1000 and minimum 1
under budget 1 pays off in exactly 1000 periods (the loop granted one more
month of fuel succeeds with `total_months = 1000`), yet the engine returns
the runaway error: the source's safety check fires after the 1000th
processed month even though that month completes the payoff.  This refutes
the claim that every payoff completing within 1000 periods succeeds. -/
theorem runaway_at_exact_1000_cex :
    create_payment_schedule [CreditCard.make "A" 1000 1 "15th" 0 0 ""] 1
      = .error .runaway ∧
    monthsOf (scheduleLoop 0 [(⟨"A", 1000, 1, 0, 0⟩ : WCard)] 1 [] 0 1000) = 1000 := by
  constructor
  · rw [create_payment_schedule_def]
    rw [show ((sortedCards [CreditCard.make "A" 1000 1 "15th" 0 0 ""]).map
        (·.minimum_payment)).sum = 1 from by decide]
    rw [if_neg (lt_irrefl 1)]
    rw [show (sortedCards [CreditCard.make "A" 1000 1 "15th" 0 0 ""]).map toWCard
        = [(⟨"A", 1000, 1, 0, 0⟩ : WCard)] from by decide]
    rw [show (1:ℚ) - 1 = 0 from by norm_num]
    exact runaway_payoff 999 1000 (by norm_num) 1 [] 0
  · obtain ⟨s, hs, htot⟩ := payoff_success 1000 (by omega) 1000 le_rfl 1 [] 0
    rw [show ((1000 : ℕ) : ℚ) = (1000 : ℚ) from by norm_num] at hs
    rw [hs]
    simpa using htot

/-! ## Fuel-replay lemmas and the termination-bound characterization -/

theorem scheduleLoop_acc_le (e : ℚ) : ∀ (fuel : Nat) (cards : List WCard) (m : Nat)
    (acc : List MonthData) (ti : ℚ) (s : ScheduleSuccess),
    scheduleLoop e cards m acc ti fuel = .ok s → acc.length ≤ s.schedule.length := by
  intro fuel
  induction fuel with
  | zero =>
    intro cards m acc ti s hok
    cases cards with
    | nil =>
      rw [scheduleLoop_nil] at hok
      injection hok with h
      subst h
      exact le_refl _
    | cons c cs =>
      rw [scheduleLoop_cons_zero] at hok
      exact ScheduleResult.noConfusion hok
  | succ fuel ih =>
    intro cards m acc ti s hok
    cases cards with
    | nil =>
      rw [scheduleLoop_nil] at hok
      injection hok with h
      subst h
      exact le_refl _
    | cons c cs =>
      rw [scheduleLoop_cons_succ] at hok
      have h := ih _ _ _ _ _ hok
      simp only [List.length_append, List.length_cons, List.length_nil] at h
      omega

theorem scheduleLoop_ok_months (e : ℚ) : ∀ (fuel : Nat) (cards : List WCard) (m : Nat)
    (acc : List MonthData) (ti : ℚ) (s : ScheduleSuccess),
    scheduleLoop e cards m acc ti fuel = .ok s →
    s.total_months = s.schedule.length := by
  intro fuel
  induction fuel with
  | zero =>
    intro cards m acc ti s hok
    cases cards with
    | nil =>
      rw [scheduleLoop_nil] at hok
      injection hok with h
      subst h
      rfl
    | cons c cs =>
      rw [scheduleLoop_cons_zero] at hok
      exact ScheduleResult.noConfusion hok
  | succ fuel ih =>
    intro cards m acc ti s hok
    cases cards with
    | nil =>
      rw [scheduleLoop_nil] at hok
      injection hok with h
      subst h
      rfl
    | cons c cs =>
      rw [scheduleLoop_cons_succ] at hok
      exact ih _ _ _ _ _ hok

/-- Success is a property of the payoff, not of the specific fuel: a run
that succeeded can be replayed with any fuel that covers the months still
to be produced, yielding the same result. -/
theorem scheduleLoop_ok_fuel (e : ℚ) : ∀ (fuel : Nat) (cards : List WCard) (m : Nat)
    (acc : List MonthData) (ti : ℚ) (s : ScheduleSuccess),
    scheduleLoop e cards m acc ti fuel = .ok s →
    ∀ fuel2 : Nat, s.schedule.length - acc.length ≤ fuel2 →
    scheduleLoop e cards m acc ti fuel2 = .ok s := by
  intro fuel
  induction fuel with
  | zero =>
    intro cards m acc ti s hok fuel2 hf2
    cases cards with
    | nil =>
      rw [scheduleLoop_nil] at hok ⊢
      exact hok
    | cons c cs =>
      rw [scheduleLoop_cons_zero] at hok
      exact ScheduleResult.noConfusion hok
  | succ fuel ih =>
    intro cards m acc ti s hok fuel2 hf2
    cases cards with
    | nil =>
      rw [scheduleLoop_nil] at hok ⊢
      exact hok
    | cons c cs =>
      rw [scheduleLoop_cons_succ] at hok
      have hlen := scheduleLoop_acc_le e fuel _ _ _ _ _ hok
      simp only [List.length_append, List.length_cons, List.length_nil] at hlen
      obtain ⟨k2, rfl⟩ : ∃ k2, fuel2 = k2 + 1 := ⟨fuel2 - 1, by omega⟩
      rw [scheduleLoop_cons_succ]
      refine ih _ _ _ _ _ hok k2 ?_
      simp only [List.length_append, List.length_cons, List.length_nil]
      omega

/-- C4 (amended): the engine always returns (never loops), and the
1000-month guard works out to the exact bound 999: (i) every success
reports `total_months = schedule length ≤ 999`; (ii) completeness — if the
loop, granted any amount of fuel, pays off within 999 periods, the engine
(whose fuel is 999) returns that very success, provided the budget floor
passes; (iii) with the budget floor passed, the engine returns the
RunawaySchedule error exactly when no fuel extension reaches payoff within
999 periods.  The boundary itself moves from the claimed 1000 to 999: a
payoff needing exactly 1000 periods is runaway (see the counterexample). -/
theorem schedule_periods_bound (cards : List CreditCard) (b : ℚ) :
    (∀ s, create_payment_schedule cards b = .ok s →
      s.total_months = s.schedule.length ∧ s.total_months ≤ 999) ∧
    (∀ (fuel : Nat) (s : ScheduleSuccess),
      scheduleLoop (b - required_minimum cards)
          ((sortedCards cards).map toWCard) 1 [] 0 fuel = .ok s →
      s.total_months ≤ 999 →
      ¬ b < required_minimum cards →
      create_payment_schedule cards b = .ok s) ∧
    (¬ b < required_minimum cards →
      (create_payment_schedule cards b = .error .runaway ↔
        ∀ (fuel : Nat) (s : ScheduleSuccess),
          scheduleLoop (b - required_minimum cards)
              ((sortedCards cards).map toWCard) 1 [] 0 fuel = .ok s →
          999 < s.total_months)) := by
  have hcompl : ∀ (fuel : Nat) (s : ScheduleSuccess),
      scheduleLoop (b - required_minimum cards)
          ((sortedCards cards).map toWCard) 1 [] 0 fuel = .ok s →
      s.total_months ≤ 999 →
      ¬ b < required_minimum cards →
      create_payment_schedule cards b = .ok s := by
    intro fuel s hok hle hnb
    rw [create_payment_schedule_def, sorted_minsum, if_neg hnb]
    have hm := scheduleLoop_ok_months _ fuel _ _ _ _ _ hok
    refine scheduleLoop_ok_fuel _ fuel _ _ _ _ _ hok 999 ?_
    simp only [List.length_nil]
    omega
  refine ⟨?_, hcompl, ?_⟩
  · intro s hok
    obtain ⟨hm, hlen, -⟩ := create_payment_schedule_ok_spec cards b s hok
    exact ⟨hm, hm ▸ hlen⟩
  · intro hnb
    constructor
    · intro herr fuel s hok
      by_contra hgt
      push_neg at hgt
      have h2 := hcompl fuel s hok hgt hnb
      rw [h2] at herr
      exact ScheduleResult.noConfusion herr
    · intro hall
      rw [create_payment_schedule_def, sorted_minsum, if_neg hnb]
      cases h : scheduleLoop (b - required_minimum cards)
          ((sortedCards cards).map toWCard) 1 [] 0 999 with
      | ok s =>
        exfalso
        obtain ⟨rest, -, hm, hlen, -⟩ :=
          scheduleLoop_ok_spec _ 999 _ 1 [] 0 s (ws_pos cards) h
        have hgt := hall 999 s h
        simp only [List.length_nil] at hlen
        omega
      | error e =>
        cases e with
        | budgetBelowMinimum x y =>
          exact absurd h (scheduleLoop_ne_budget _ 999 _ 1 [] 0 x y)
        | runaway => rfl

unseal Rat.mul Rat.add Rat.sub Rat.inv in
theorem schedule_periods_bound_witness :
    (sampleSuccess.total_months = sampleSuccess.schedule.length ∧
      sampleSuccess.total_months ≤ 999) ∧
    create_payment_schedule [sampleCard] 25 = .ok sampleSuccess ∧
    (create_payment_schedule [sampleCard] 25 = .error .runaway ↔
      ∀ (fuel : Nat) (s : ScheduleSuccess),
        scheduleLoop (25 - required_minimum [sampleCard])
            ((sortedCards [sampleCard]).map toWCard) 1 [] 0 fuel = .ok s →
        999 < s.total_months) :=
  ⟨(schedule_periods_bound [sampleCard] 25).1 sampleSuccess (by decide),
   (schedule_periods_bound [sampleCard] 25).2.1 999 sampleSuccess (by decide) (by decide)
     (by decide),
   (schedule_periods_bound [sampleCard] 25).2.2 (by decide)⟩

/-! ## Projection helpers for the snowball-targeting claim -/

theorem pairs_fst_before (md : MonthData) :
    (pairsBefore md).map Prod.fst = md.payments.map (·.card) := by
  simp [pairsBefore, List.map_map, Function.comp]

theorem pairs_fst_after (md : MonthData) :
    (pairsAfter md).map Prod.fst = md.payments.map (·.card) := by
  simp [pairsAfter, List.map_map, Function.comp]

theorem cardPairs_fst (cards : List WCard) :
    (cardPairs cards).map Prod.fst = cards.map (·.name) := by
  simp [cardPairs, List.map_map, Function.comp]

theorem toWCard_names (l : List CreditCard) :
    (l.map toWCard).map (·.name) = l.map (·.name) := by
  simp [List.map_map, Function.comp, toWCard]

/-- C1: the working order is fixed once: ascending by balance, a stable
permutation of the positive-balance accounts (equal balances keep the input
order).  Through the run, the per-month lists of account names only shrink
as order-preserving sublists of that initial order (the list is never
re-sorted), so the first line of each month belongs to the
smallest-starting-balance account still unpaid; and every line after the
first records exactly its account's minimum-derived payment
`max minimum interest`, so at most one account — the first active one — can
be paid more than its minimum-derived payment in any period. -/
theorem snowball_single_target (cards : List CreditCard) (b : ℚ) (s : ScheduleSuccess)
    (hnd : (cards.map (·.name)).Nodup)
    (hok : create_payment_schedule cards b = .ok s) :
    List.Sorted (fun a b : CreditCard => a.balance ≤ b.balance) (sortedCards cards) ∧
    (sortedCards cards).Perm (cards.filter (fun card => 0 < card.balance)) ∧
    (∀ v : ℚ, (sortedCards cards).filter (fun c => decide (c.balance = v))
        = (cards.filter (fun card => 0 < card.balance)).filter
            (fun c => decide (c.balance = v))) ∧
    List.Chain' (fun ns1 ns2 => List.Sublist ns2 ns1)
      ((sortedCards cards).map (·.name)
        :: s.schedule.map (fun md => md.payments.map (·.card))) ∧
    (∀ md ∈ s.schedule, TailMin (minOf cards) md) := by
  obtain ⟨-, -, -, -, hhead, hchain, -, htailmin⟩ :=
    create_payment_schedule_ok_spec cards b s hok
  refine ⟨List.sorted_insertionSort _ _, List.perm_insertionSort _ _,
    fun v => insertionSort_balance_stable _ v, ?_, ?_⟩
  · rw [List.chain'_cons']
    constructor
    · intro y hy
      rw [List.head?_map] at hy
      rcases Option.map_eq_some'.mp (Option.mem_def.mp hy) with ⟨md0, h1, h2⟩
      have h3 := hhead md0 h1
      have h4 : y = (sortedCards cards).map (·.name) := by
        rw [← h2, ← pairs_fst_before, h3, cardPairs_fst, toWCard_names]
      rw [h4]
    · rw [List.chain'_map]
      refine hchain.imp ?_
      intro a b hab
      have h5 := hab.map Prod.fst
      rw [pairs_fst_before, pairs_fst_after] at h5
      exact h5
  · refine htailmin (minOf cards) ?_
    intro c hc
    rcases List.mem_map.mp hc with ⟨y, hy, rfl⟩
    have hy2 : y ∈ cards.filter (fun card => 0 < card.balance) :=
      (List.mem_insertionSort _).mp hy
    have hy3 : y ∈ cards := List.mem_of_mem_filter hy2
    exact minOf_eq cards hnd y hy3

unseal Rat.mul Rat.add Rat.sub Rat.inv in
theorem snowball_single_target_witness :
    List.Sorted (fun a b : CreditCard => a.balance ≤ b.balance)
      (sortedCards [sampleCard]) ∧
    (sortedCards [sampleCard]).Perm
      ([sampleCard].filter (fun card => 0 < card.balance)) ∧
    (∀ v : ℚ, (sortedCards [sampleCard]).filter (fun c => decide (c.balance = v))
        = ([sampleCard].filter (fun card => 0 < card.balance)).filter
            (fun c => decide (c.balance = v))) ∧
    List.Chain' (fun ns1 ns2 => List.Sublist ns2 ns1)
      ((sortedCards [sampleCard]).map (·.name)
        :: sampleSuccess.schedule.map (fun md => md.payments.map (·.card))) ∧
    (∀ md ∈ sampleSuccess.schedule, TailMin (minOf [sampleCard]) md) :=
  snowball_single_target [sampleCard] 25 sampleSuccess (by decide) (by decide)

/-! ## Claim theorems: the minimum-below-interest step and concrete runs -/

/-- C6: for an active account whose minimum payment is below the interest
accrued this period, the minimum-payment step records a payment of exactly
the interest charge, a zero principal, and leaves the balance unchanged
(both in the recorded line and in the working card). -/
theorem min_below_interest_step (c : WCard) (hb : 0 < c.balance)
    (h : c.minimum < calculate_interest c.balance c.monthly_rate) :
    (minStep c).1.payment = calculate_interest c.balance c.monthly_rate ∧
    (minStep c).1.principal = 0 ∧
    (minStep c).1.balance_after = c.balance ∧
    (minStep c).2.balance = c.balance := by
  have h2 : c.minimum - calculate_interest c.balance c.monthly_rate < 0 := by linarith
  refine ⟨?_, ?_, ?_, ?_⟩
  · simp only [minStep, if_pos h2]
  · simp only [minStep, if_pos h2]
  · simp only [minStep, if_pos h2]
    rw [sub_zero]
    exact max_eq_right hb.le
  · simp only [minStep, if_pos h2]
    rw [sub_zero]
    exact max_eq_right hb.le

unseal Rat.mul Rat.add Rat.sub Rat.inv in
theorem min_below_interest_step_witness :
    (minStep ⟨"A", 100, 1, 18, 3/200⟩).1.payment
        = calculate_interest (100 : ℚ) (3/200) ∧
    (minStep ⟨"A", 100, 1, 18, 3/200⟩).1.principal = 0 ∧
    (minStep ⟨"A", 100, 1, 18, 3/200⟩).1.balance_after = 100 ∧
    (minStep ⟨"A", 100, 1, 18, 3/200⟩).2.balance = 100 :=
  min_below_interest_step ⟨"A", 100, 1, 18, 3/200⟩ (by decide) (by decide)

unseal Rat.mul Rat.add Rat.sub Rat.inv in
/-- C7: the single account with balance 500, minimum 25, APR 18 under budget
1000 pays off in one period; the total paid is exactly 1015/2 = 507.50 (the
500 principal plus one month's interest of 7.50) — the excess budget beyond
the remaining balance is not paid out (507.50, not 1000). -/
theorem single_account_one_month_exact :
    create_payment_schedule [CreditCard.make "A" 500 25 "15th" 18 0 ""] 1000
      = .ok ⟨[⟨1, [⟨"A", 1015/2, 15/2, 500, 500, 0⟩], [("A", 0)], 1015/2, 15/2⟩],
          1, 15/2, 1015/2⟩ ∧
    (1015/2 : ℚ) = 507.5 ∧ (1015/2 : ℚ) ≠ 1000 :=
  ⟨by decide, by norm_num, by norm_num⟩

/-- C8 (amended): with a non-negative budget, an input in which no account
carries a positive balance yields the vacuous success: zero periods, zero
interest, zero paid.  (With a negative budget the budget-floor check fires
instead — see the counterexample.) -/
theorem vacuous_success (cards : List CreditCard) (b : ℚ)
    (hb : 0 ≤ b) (hz : ∀ c ∈ cards, c.balance ≤ 0) :
    create_payment_schedule cards b = .ok ⟨[], 0, 0, 0⟩ := by
  have hfil : cards.filter (fun card => 0 < card.balance) = [] := by
    rw [List.filter_eq_nil_iff]
    intro c hc
    simp only [decide_eq_true_eq]
    exact not_lt.mpr (hz c hc)
  have hs : sortedCards cards = [] := by
    rw [sortedCards, hfil]
    rfl
  rw [create_payment_schedule_def, hs]
  simp only [List.map_nil, List.sum_nil]
  rw [if_neg (not_lt.mpr hb)]
  rw [scheduleLoop_nil]
  rfl

theorem vacuous_success_witness :
    0 ≤ (5 : ℚ) ∧
    create_payment_schedule [CreditCard.make "Z" 0 0 "15th" 18 0 ""] 5
      = .ok ⟨[], 0, 0, 0⟩ :=
  ⟨by norm_num,
    vacuous_success [CreditCard.make "Z" 0 0 "15th" 18 0 ""] 5 (by norm_num)
      (by decide)⟩

/-- C8 counterexample: the empty input with budget −1 has no positive-balance
account, yet the engine returns the budget-floor error (−1 is below the
vacuous required minimum 0), not the claimed success result. -/
theorem vacuous_negative_budget_cex :
    create_payment_schedule [] (-1) = .error (.budgetBelowMinimum (-1) 0) := by
  decide

/-! ## Claim theorem: the frame property -/

theorem scheduleLoopSt_nil (e : ℚ) (month : Nat) (acc : List MonthData) (ti : ℚ)
    (fuel : Nat) (src : List CreditCard) :
    scheduleLoopSt e [] month acc ti fuel src
      = (.ok ⟨acc, acc.length, ti, (acc.map (·.total_paid)).sum⟩, src) := by
  cases fuel with
  | zero => rfl
  | succ fuel => rfl

theorem scheduleLoopSt_cons_zero (e : ℚ) (c : WCard) (cs : List WCard) (month : Nat)
    (acc : List MonthData) (ti : ℚ) (src : List CreditCard) :
    scheduleLoopSt e (c :: cs) month acc ti 0 src = (.error .runaway, src) := rfl

theorem scheduleLoopSt_cons_succ (e : ℚ) (c : WCard) (cs : List WCard) (month : Nat)
    (acc : List MonthData) (ti : ℚ) (fuel : Nat) (src : List CreditCard) :
    scheduleLoopSt e (c :: cs) month acc ti (fuel + 1) src
      = scheduleLoopSt e
          ((processMonth e month (c :: cs)).2.filter (fun card => 0 < card.balance))
          (month + 1) (acc ++ [(processMonth e month (c :: cs)).1])
          (ti + (processMonth e month (c :: cs)).1.interest_paid) fuel src := rfl

theorem scheduleLoopSt_eq (e : ℚ) : ∀ (fuel : Nat) (cards : List WCard) (m : Nat)
    (acc : List MonthData) (ti : ℚ) (src : List CreditCard),
    scheduleLoopSt e cards m acc ti fuel src
      = (scheduleLoop e cards m acc ti fuel, src) := by
  intro fuel
  induction fuel with
  | zero =>
    intro cards m acc ti src
    cases cards with
    | nil => rw [scheduleLoopSt_nil, scheduleLoop_nil]
    | cons c cs => rw [scheduleLoopSt_cons_zero, scheduleLoop_cons_zero]
  | succ fuel ih =>
    intro cards m acc ti src
    cases cards with
    | nil => rw [scheduleLoopSt_nil, scheduleLoop_nil]
    | cons c cs =>
      rw [scheduleLoopSt_cons_succ, scheduleLoop_cons_succ]
      exact ih _ _ _ _ _

theorem create_payment_schedule_st_def (cards : List CreditCard) (b : ℚ) :
    create_payment_schedule_st cards b =
      if b < ((sortedCards cards).map (·.minimum_payment)).sum then
        (.error (.budgetBelowMinimum b (((sortedCards cards).map (·.minimum_payment)).sum)),
         cards)
      else
        scheduleLoopSt (b - ((sortedCards cards).map (·.minimum_payment)).sum)
          ((sortedCards cards).map toWCard) 1 [] 0 999 cards := rfl

/-- C9: the engine never modifies its input records.  In the state-passing
translation — where the list of `CreditCard` records is the only aliased
state and the loop works exclusively on the freshly built working dicts —
the records come back exactly as they went in, and the computed result is
the same as the pure engine's. -/
theorem engine_frame (cards : List CreditCard) (b : ℚ) :
    (create_payment_schedule_st cards b).2 = cards ∧
    (create_payment_schedule_st cards b).1 = create_payment_schedule cards b := by
  have key : create_payment_schedule_st cards b
      = (create_payment_schedule cards b, cards) := by
    rw [create_payment_schedule_st_def, create_payment_schedule_def]
    by_cases h : b < ((sortedCards cards).map (·.minimum_payment)).sum
    · rw [if_pos h, if_pos h]
    · rw [if_neg h, if_neg h]
      exact scheduleLoopSt_eq _ 999 _ 1 [] 0 cards
  rw [key]
  exact ⟨rfl, rfl⟩

end CCPaydown
